import Mathlib

/-!
Verification development for the RSSPRIME feed-aggregation repository.

The definitions below are a shallow embedding of `app/feed_processor.py`
(URL canonicalization, title normalization, fuzzy matching, best-item
selection, the deduplication engine) and `app/scheduler_locks.py`
(the per-(source, section) lock).  Library functions the code calls
(`urllib.parse`, `thefuzz.fuzz.ratio`, `dateutil.parser.isoparse`,
`unidecode`) are embedded from their actual algorithms (CPython 3.11
`urllib/parse.py`; rapidfuzz's normalized indel ratio used by thefuzz;
the ISO-8601 subset of `isoparse`; `unidecode`, which is the identity on
ASCII).  Machine integers do not overflow in any of this code, so
numbers are modelled as `Nat`/`Int`.
-/

namespace RSSPrime

/-! ## Character and string helpers -/

/-- The 26 uppercase-to-lowercase ASCII pairs. -/
def lowerTable : List (Char × Char) :=
  [('A', 'a'), ('B', 'b'), ('C', 'c'), ('D', 'd'), ('E', 'e'), ('F', 'f'),
   ('G', 'g'), ('H', 'h'), ('I', 'i'), ('J', 'j'), ('K', 'k'), ('L', 'l'),
   ('M', 'm'), ('N', 'n'), ('O', 'o'), ('P', 'p'), ('Q', 'q'), ('R', 'r'),
   ('S', 's'), ('T', 't'), ('U', 'u'), ('V', 'v'), ('W', 'w'), ('X', 'x'),
   ('Y', 'y'), ('Z', 'z')]

/-- ASCII lowercasing of one character, as `str.lower` acts on ASCII.
All strings manipulated by the embedded code paths are ASCII;
`str.lower` on non-ASCII letters is outside the model. -/
def lowerChar (c : Char) : Char :=
  ((lowerTable.find? (fun p => p.1 = c)).map (fun p => p.2)).getD c

/-- Lowercase a character list. -/
def lowerL (l : List Char) : List Char := l.map lowerChar

/-- Lowercase a string (`str.lower`). -/
def lowerStr (s : String) : String := String.mk (lowerL s.data)

/-- Split a character list at the first occurrence of `c`
(Python `s.split(c, 1)`): returns the part before, and `some` of the part
after the separator when the separator occurs. -/
def breakAt (c : Char) : List Char → List Char × Option (List Char)
  | [] => ([], none)
  | x :: xs =>
    if x = c then ([], some xs)
    else
      let r := breakAt c xs
      (x :: r.1, r.2)

/-- Split at the last `'/'`: `some (pre, post)` with
`l = pre ++ '/' :: post` and no `'/'` in `post`; `none` when `l` has
no slash. -/
def splitLastSlash (l : List Char) : Option (List Char × List Char) :=
  match breakAt '/' l.reverse with
  | (revPost, some revPre) => some (revPre.reverse, revPost.reverse)
  | (_, none) => none

/-- Strip trailing slashes (Python `path.rstrip('/')`). -/
def rstripSlash (l : List Char) : List Char :=
  (l.reverse.dropWhile (fun c => c = '/')).reverse

/-! ## `urllib.parse` model (CPython 3.11)

`urlsplit` / `urlparse` / `urlunparse` as implemented in CPython 3.11's
`urllib/parse.py`, on `List Char`.  Not modelled: `_checknetloc` (which
raises only for certain non-ASCII netlocs) and `lru_cache`. -/

/-- Characters allowed in a URL scheme after the first
(`scheme_chars` in `urllib/parse.py`). -/
def schemeChar (c : Char) : Bool :=
  c.isAlpha || c.isDigit || c = '+' || c = '-' || c = '.'

/-- A character `urlsplit` does not delete (everything except the
`_UNSAFE_URL_BYTES_TO_REMOVE`: tab, CR and LF). -/
def cleanChar (c : Char) : Bool := ¬(c = '\t' ∨ c = '\r' ∨ c = '\n')

/-- The `_UNSAFE_URL_BYTES_TO_REMOVE` removal loop of `urlsplit`:
tab, CR and LF are deleted anywhere in the URL. -/
def removeUnsafe (l : List Char) : List Char :=
  l.filter cleanChar

/-- Head of the candidate scheme must be an ASCII letter
(`url[0].isascii() and url[0].isalpha()`). -/
def headAlpha : List Char → Bool
  | c :: _ => c.isAlpha
  | [] => false

/-- Scheme detection of `urlsplit`: if the first `':'` is preceded by a
nonempty run of scheme characters starting with an ASCII letter, the
(lowercased) run is the scheme and the remainder follows the `':'`;
otherwise there is no scheme and the URL is unchanged. -/
def splitScheme (u : List Char) : List Char × List Char :=
  match breakAt ':' u with
  | (pre, some rest) =>
    if pre ≠ [] ∧ headAlpha pre ∧ pre.all schemeChar
    then (lowerL pre, rest)
    else ([], u)
  | (_, none) => ([], u)

/-- A character that does not terminate the netloc
(`_splitnetloc` scans up to the first of `'/'`, `'?'`, `'#'`). -/
def netlocChar (c : Char) : Bool := ¬(c = '/' ∨ c = '?' ∨ c = '#')

/-- Result of `urlsplit`. -/
structure SplitResult where
  scheme : List Char
  netloc : List Char
  path : List Char
  query : List Char
  fragment : List Char
deriving DecidableEq, Repr

/-- `urlsplit` (CPython 3.11): remove unsafe bytes, detect the scheme,
extract the netloc after a leading `"//"` (raising `ValueError` on
mismatched IPv6 brackets), then split off fragment and query. -/
def urlsplitE (url0 : List Char) : Except Unit SplitResult :=
  let u := removeUnsafe url0
  let su := splitScheme u
  let scheme := su.1
  let nu :=
    match su.2 with
    | '/' :: '/' :: rest => (rest.takeWhile netlocChar, rest.dropWhile netlocChar)
    | other => ([], other)
  let netloc := nu.1
  if ('[' ∈ netloc ∧ ']' ∉ netloc) ∨ (']' ∈ netloc ∧ '[' ∉ netloc) then .error ()
  else
    let fu := breakAt '#' nu.2
    let u3 := fu.1
    let fragment := (fu.2).getD []
    let qu := breakAt '?' u3
    .ok ⟨scheme, netloc, qu.1, (qu.2).getD [], fragment⟩

/-- Result of `urlparse`. -/
structure ParseResult where
  scheme : List Char
  netloc : List Char
  path : List Char
  params : List Char
  query : List Char
  fragment : List Char
deriving DecidableEq, Repr

/-- `uses_params` from `urllib/parse.py`. -/
def uses_params : List (List Char) :=
  (["", "ftp", "hdl", "prospero", "http", "imap", "https", "shttp", "rtsp",
    "rtspu", "sip", "sips", "mms", "sftp", "tel"]).map String.data

/-- `uses_netloc` from `urllib/parse.py`. -/
def uses_netloc : List (List Char) :=
  (["", "ftp", "http", "gopher", "nntp", "telnet", "imap", "wais", "file",
    "mms", "https", "shttp", "snews", "prospero", "rtsp", "rtspu", "rsync",
    "svn", "svn+ssh", "sftp", "nfs", "git", "git+ssh", "ws", "wss"]).map String.data

/-- `_splitparams`: when the path contains a slash, the params are
everything after the first `';'` at or after the last `'/'`; otherwise
after the first `';'`. -/
def splitparams (path : List Char) : List Char × List Char :=
  match splitLastSlash path with
  | some pp =>
    (match breakAt ';' pp.2 with
     | (a, some b) => (pp.1 ++ '/' :: a, b)
     | (_, none) => (path, []))
  | none =>
    (match breakAt ';' path with
     | (a, some b) => (a, b)
     | (_, none) => (path, []))

/-- `urlparse` (CPython 3.11): `urlsplit` plus the params split, which is
performed only for schemes in `uses_params` and when the path contains
a `';'`. -/
def urlparseE (url : List Char) : Except Unit ParseResult :=
  match urlsplitE url with
  | .error e => .error e
  | .ok s =>
    if s.scheme ∈ uses_params ∧ ';' ∈ s.path then
      let pp := splitparams s.path
      .ok ⟨s.scheme, s.netloc, pp.1, pp.2, s.query, s.fragment⟩
    else .ok ⟨s.scheme, s.netloc, s.path, [], s.query, s.fragment⟩

/-- Head test for `url[:2] == '//'`. -/
def startsDoubleSlash : List Char → Bool
  | '/' :: '/' :: _ => true
  | _ => false

/-- `urlunsplit` (CPython 3.11). -/
def urlunsplit (scheme netloc path query fragment : List Char) : List Char :=
  let url := path
  let url :=
    if netloc ≠ [] ∨ (scheme ≠ [] ∧ scheme ∈ uses_netloc ∧ ¬ startsDoubleSlash url) then
      let url := if url ≠ [] ∧ url.head? ≠ some '/' then '/' :: url else url
      '/' :: '/' :: (netloc ++ url)
    else url
  let url := if scheme ≠ [] then scheme ++ ':' :: url else url
  let url := if query ≠ [] then url ++ '?' :: query else url
  if fragment ≠ [] then url ++ '#' :: fragment else url

/-- `urlunparse`: re-attach the params with `';'`, then `urlunsplit`. -/
def urlunparse (p : ParseResult) : List Char :=
  let path := if p.params ≠ [] then p.path ++ ';' :: p.params else p.path
  urlunsplit p.scheme p.netloc path p.query p.fragment

/-! ## `canonicalize_url` (feed_processor.py, lines 12–26) -/

/-- `canonicalize_url`: `None` (here `none`) for a falsy input; otherwise
parse, drop query and fragment, strip trailing slashes from the path,
reassemble and lowercase.  If parsing raises, return the lowercased
input unchanged. -/
def canonicalize_url (url : String) : Option String :=
  if url = "" then none
  else
    match urlparseE url.data with
    | .error _ => some (lowerStr url)
    | .ok p =>
      some (String.mk (lowerL
        (urlunparse ⟨p.scheme, p.netloc, rstripSlash p.path, p.params, [], []⟩)))

/-! ## `normalize_title` (feed_processor.py, lines 28–38) -/

/-- Transliteration table of `unidecode` restricted to the character
ranges the feeds use: the identity on ASCII, the usual Latin-1 accented
letters, and the empty string on anything else (which is `unidecode`'s
fallback for unmapped code points; code points it maps that are missing
from this table are outside the model). -/
def unidecodeChar (c : Char) : List Char :=
  if c.toNat < 128 then [c]
  else if c ∈ ['á', 'à', 'â', 'ã', 'ä', 'å'] then ['a']
  else if c ∈ ['Á', 'À', 'Â', 'Ã', 'Ä', 'Å'] then ['A']
  else if c ∈ ['é', 'è', 'ê', 'ë'] then ['e']
  else if c ∈ ['É', 'È', 'Ê', 'Ë'] then ['E']
  else if c ∈ ['í', 'ì', 'î', 'ï'] then ['i']
  else if c ∈ ['Í', 'Ì', 'Î', 'Ï'] then ['I']
  else if c ∈ ['ó', 'ò', 'ô', 'õ', 'ö'] then ['o']
  else if c ∈ ['Ó', 'Ò', 'Ô', 'Õ', 'Ö'] then ['O']
  else if c ∈ ['ú', 'ù', 'û', 'ü'] then ['u']
  else if c ∈ ['Ú', 'Ù', 'Û', 'Ü'] then ['U']
  else if c = 'ç' then ['c']
  else if c = 'Ç' then ['C']
  else if c = 'ñ' then ['n']
  else if c = 'Ñ' then ['N']
  else if c = 'ý' ∨ c = 'ÿ' then ['y']
  else if c = 'ß' then ['s', 's']
  else if c = 'æ' then ['a', 'e']
  else if c = 'Æ' then ['A', 'E']
  else if c = 'œ' then ['o', 'e']
  else if c = 'Œ' then ['O', 'E']
  else []

/-- Maximal runs of alphanumeric characters.  On the ASCII text produced
by `unidecode` + `str.lower`, the regex class `[\s\W_]` of
`normalize_title` is exactly the complement of `[a-zA-Z0-9]`, so
`re.sub(r'[\s\W_]+', ' ', text).strip()` keeps precisely these runs,
joined by single spaces. -/
def wordRunsAux : List Char → List Char → List (List Char)
  | [], acc => if acc = [] then [] else [acc.reverse]
  | c :: cs, acc =>
    if c.isAlphanum then wordRunsAux cs (c :: acc)
    else if acc = [] then wordRunsAux cs []
    else acc.reverse :: wordRunsAux cs []

/-- `normalize_title`: empty/falsy titles give `""`; otherwise
transliterate accents away (`unidecode`), lowercase, collapse every run
of whitespace/punctuation/underscore to a single space and strip. -/
def normalize_title (t : String) : String :=
  if t = "" then ""
  else
    let text := (t.data.map unidecodeChar).flatten
    let text := lowerL text
    String.mk (List.intercalate [' '] (wordRunsAux text []))

/-! ## `thefuzz.fuzz.ratio` -/

/-- Python `round` on the exact rational `num / den` (banker's rounding,
`den ≠ 0`).  thefuzz computes the ratio in floating point before
rounding; for the values arising here the float is exact, so the
rational model agrees. -/
def pyRound (num den : ℕ) : ℕ :=
  let q := num / den
  let r := num % den
  if 2 * r < den then q
  else if den < 2 * r then q + 1
  else if q % 2 = 0 then q else q + 1

/-- One row update of the longest-common-subsequence table:
`prev` is the previous row, `cur` the value to the left. -/
def lcsRowAux (x : Char) : List Char → List ℕ → ℕ → List ℕ
  | y :: ys, p0 :: p1 :: ps, cur =>
    let v := if x = y then p0 + 1 else max cur p1
    v :: lcsRowAux x ys (p1 :: ps) v
  | _, _, _ => []

/-- Length of a longest common subsequence, by dynamic programming. -/
def lcs (xs ys : List Char) : ℕ :=
  (xs.foldl (fun prev x => 0 :: lcsRowAux x ys prev 0)
    (List.replicate (ys.length + 1) 0)).getLastD 0

/-- `thefuzz.fuzz.ratio`: rapidfuzz's normalized indel similarity scaled
to 0–100 and rounded with `int(round(...))`.  The indel distance of two
strings is `len1 + len2 - 2 * LCS`, so the similarity is
`2 * LCS / (len1 + len2)`; two empty strings score 100. -/
def fuzz_ratio (s1 s2 : String) : ℕ :=
  let l1 := s1.data
  let l2 := s2.data
  if l1.length + l2.length = 0 then 100
  else pyRound (200 * lcs l1 l2) (l1.length + l2.length)

/-! ## `dateutil.parser.isoparse` (modelled subset) -/

/-- Decimal digit value. -/
def digitVal (c : Char) : Option ℕ :=
  if c.isDigit then some (c.toNat - 48) else none

/-- Parse exactly two decimal digits. -/
def parse2 : List Char → Option (ℕ × List Char)
  | a :: b :: rest =>
    match digitVal a, digitVal b with
    | some x, some y => some (10 * x + y, rest)
    | _, _ => none
  | _ => none

/-- Parse exactly four decimal digits. -/
def parse4 : List Char → Option (ℕ × List Char)
  | a :: b :: c :: d :: rest =>
    match digitVal a, digitVal b, digitVal c, digitVal d with
    | some w, some x, some y, some z => some (1000 * w + 100 * x + 10 * y + z, rest)
    | _, _, _, _ => none
  | _ => none

/-- Expect a specific character. -/
def expectChar (c : Char) : List Char → Option (List Char)
  | x :: xs => if x = c then some xs else none
  | [] => none

/-- Gregorian leap year. -/
def leapYear (y : ℕ) : Bool := (y % 4 = 0 ∧ y % 100 ≠ 0) ∨ y % 400 = 0

/-- Days in a month. -/
def daysInMonth (y m : ℕ) : ℕ :=
  if m = 2 then (if leapYear y then 29 else 28)
  else if m ∈ [4, 6, 9, 11] then 30 else 31

/-- Days before the first of month `m` in year `y`. -/
def daysBeforeMonth (y m : ℕ) : ℕ :=
  ([0, 31, 59, 90, 120, 151, 181, 212, 243, 273, 304, 334].getD (m - 1) 0)
    + (if leapYear y ∧ 2 < m then 1 else 0)

/-- Days from 1970-01-01 to `y-m-d` (proleptic Gregorian); 719162 is the
day count from 0001-01-01 to the epoch. -/
def daysSinceEpoch (y m d : ℕ) : ℤ :=
  ((365 * (y - 1) + (y - 1) / 4 - (y - 1) / 100 + (y - 1) / 400
    + daysBeforeMonth y m + (d - 1) : ℕ) : ℤ) - 719162

/-- UTC-offset minutes part: `HH`, `HHMM` or `HH:MM`, in seconds. -/
def parseHM (l : List Char) : Option ℤ :=
  match parse2 l with
  | none => none
  | some (h, rest) =>
    if 24 ≤ h then none
    else
      match rest with
      | [] => some (3600 * (h : ℤ))
      | ':' :: rest2 =>
        (match parse2 rest2 with
         | some (m, []) => if 60 ≤ m then none else some (3600 * (h : ℤ) + 60 * m)
         | _ => none)
      | _ =>
        (match parse2 rest with
         | some (m, []) => if 60 ≤ m then none else some (3600 * (h : ℤ) + 60 * m)
         | _ => none)

/-- Trailing UTC offset.  The empty case (a naive timestamp) is outside
the model: a naive `datetime` cannot be compared with the aware ones,
so the spec's invariant already excludes it. -/
def parseOffset : List Char → Option ℤ
  | ['Z'] => some 0
  | ['z'] => some 0
  | '+' :: rest => parseHM rest
  | '-' :: rest => (parseHM rest).map (fun x => -x)
  | _ => none

/-- Date part `YYYY-MM-DD`. -/
def parseYMD (l : List Char) : Option (ℕ × ℕ × ℕ × List Char) :=
  match parse4 l with
  | some yr =>
    (match expectChar '-' yr.2 with
     | some r2 =>
       (match parse2 r2 with
        | some mr =>
          (match expectChar '-' mr.2 with
           | some r4 =>
             (match parse2 r4 with
              | some dr => some (yr.1, mr.1, dr.1, dr.2)
              | none => none)
           | none => none)
        | none => none)
     | none => none)
  | none => none

/-- Time part `HH:MM:SS`. -/
def parseHMS (l : List Char) : Option (ℕ × ℕ × ℕ × List Char) :=
  match parse2 l with
  | some hr =>
    (match expectChar ':' hr.2 with
     | some r2 =>
       (match parse2 r2 with
        | some mr =>
          (match expectChar ':' mr.2 with
           | some r4 =>
             (match parse2 r4 with
              | some sr => some (hr.1, mr.1, sr.1, sr.2)
              | none => none)
           | none => none)
        | none => none)
     | none => none)
  | none => none

/-- Field validation done by the `datetime` constructor. -/
def isoValid (y mo d h mi s : ℕ) : Bool :=
  (1 ≤ y) && (1 ≤ mo) && (mo ≤ 12) && (1 ≤ d) && (d ≤ daysInMonth y mo)
    && (h ≤ 23) && (mi ≤ 59) && (s ≤ 59)

/-- Epoch seconds of an aware timestamp. -/
def isoEpoch (y mo d h mi s : ℕ) (off : ℤ) : ℤ :=
  86400 * daysSinceEpoch y mo d + 3600 * (h : ℤ) + 60 * (mi : ℤ) + (s : ℤ) - off

/-- Modelled subset of `dateutil.parser.isoparse`: a full ISO-8601
timestamp `YYYY-MM-DDTHH:MM:SS` with a mandatory UTC offset (`Z`/`z`,
`±HH`, `±HHMM` or `±HH:MM`), as seconds since the Unix epoch.
Fractional seconds, reduced-precision forms, other separators and naive
timestamps are outside the model and map to `none`, as does every
non-ISO string — in particular RFC-2822 dates, which `isoparse` rejects
with `ValueError`. -/
def isoparse (str : String) : Option ℤ :=
  match parseYMD str.data with
  | some ymd =>
    (match expectChar 'T' ymd.2.2.2 with
     | some r =>
       (match parseHMS r with
        | some hms =>
          (match parseOffset hms.2.2.2 with
           | some off =>
             if isoValid ymd.1 ymd.2.1 ymd.2.2.1 hms.1 hms.2.1 hms.2.2.1
             then some (isoEpoch ymd.1 ymd.2.1 ymd.2.2.1 hms.1 hms.2.1 hms.2.2.1 off)
             else none
           | none => none)
        | none => none)
     | none => none)
  | none => none

/-- Epoch seconds of `datetime.min.replace(tzinfo=timezone.utc)`
(0001-01-01T00:00:00+00:00), the sentinel `get_best_item` uses for
unparseable dates. -/
def dtMin : ℤ := -62135596800

/-! ## Data model (feed_processor.py) -/

/-- A raw feed item as produced by a source collaborator.  The spec's
RawItem lists `title`, `link`, `pubDate` as required (the code skips
dicts missing one of these keys; such dicts are outside the model). -/
structure RawItem where
  title : String
  link : String
  pubDate : String
  summary : Option String
  image : Option String
  author : Option String
  categories : List String
deriving DecidableEq, Repr

/-- One `(source, link)` provenance record in `merged_from`. -/
structure Prov where
  source : String
  link : String
deriving DecidableEq, Repr

/-- A working item inside `process_feed_data`: the raw dict enriched with
`source`, `canonical_url`, `normalized_title` and `parsed_pubDate`.
`merged_from = none` models the key being absent from the dict. -/
structure WItem where
  title : String
  link : String
  pubDate : String
  summary : Option String
  image : Option String
  author : Option String
  categories : List String
  source : String
  canonical_url : Option String
  normalized_title : String
  parsed_pubDate : ℤ
  merged_from : Option (List Prov)
deriving DecidableEq, Repr

/-- An output item: the working item minus the helper fields deleted at
lines 170–173, plus `primary_category` and the cleaned `categories`. -/
structure OutItem where
  title : String
  link : String
  pubDate : String
  summary : Option String
  image : Option String
  author : Option String
  categories : List String
  source : String
  merged_from : Option (List Prov)
  primary_category : String
deriving DecidableEq, Repr

/-- One entry of `data["feeds"]`. -/
structure Feed where
  source : String
  items : List RawItem
deriving DecidableEq, Repr

/-- The input of `process_feed_data`, with the `data.get` defaults
already applied. -/
structure FeedData where
  topic : String
  priority_source_order : List String
  max_items : ℕ
  feeds : List Feed
deriving DecidableEq, Repr

/-- The output of `process_feed_data`.  The wall-clock `updated_at`
field is not modelled. -/
structure ProcessedTopic where
  topic : String
  overflow_truncated : Bool
  items : List OutItem
deriving DecidableEq, Repr

/-! ## `get_best_item` (feed_processor.py, lines 40–71) -/

/-- `priority_source_order.index(s)`, with the `ValueError` of an absent
source mapped to rank `prio.length`: strictly larger than every present
rank, and equal for two absent sources, exactly like `float('inf')`. -/
def sourceRank (prio : List String) (s : String) : ℕ :=
  (prio.findIdx? (fun x => x = s)).getD prio.length

/-- Whether `get_best_item(item1, item2, prio)` returns its *second*
argument (that is the object-identity test `best_item is item` performed
by the dedup loop, where the loop's current item is always passed
second).  Tier 1: priority rank; tier 2: image presence
(`bool(item.get('image'))`, false for a missing or empty string); tier
3: `item1` wins only on a strictly later date, so a full tie returns
`item2`. -/
def get_best_item_snd (item1 item2 : WItem) (prio : List String) : Bool :=
  let p1 := sourceRank prio item1.source
  let p2 := sourceRank prio item2.source
  if p1 ≠ p2 then decide (p2 < p1)
  else
    let h1 := decide (item1.image.getD "" ≠ "")
    let h2 := decide (item2.image.getD "" ≠ "")
    if h1 ≠ h2 then h2
    else
      let d1 := (isoparse item1.pubDate).getD dtMin
      let d2 := (isoparse item2.pubDate).getD dtMin
      decide (¬ d2 < d1)

/-- `get_best_item`: the kept item of a duplicate pair. -/
def get_best_item (item1 item2 : WItem) (prio : List String) : WItem :=
  if get_best_item_snd item1 item2 prio then item2 else item1

/-! ## The deduplication engine (feed_processor.py, lines 73–187) -/

/-- Lines 84–99: tag the item with its source, canonical URL, normalized
title and parsed date; an item whose `pubDate` fails `isoparse` is
skipped. -/
def enrich (source : String) (r : RawItem) : Option WItem :=
  match isoparse r.pubDate with
  | none => none
  | some t =>
    some ⟨r.title, r.link, r.pubDate, r.summary, r.image, r.author, r.categories,
      source, canonicalize_url r.link, normalize_title r.title, t, none⟩

/-- The working item `enrich` produces when `isoparse` returns `d`
(a named form of `enrich`'s successful result, convenient in proofs). -/
def enriched (source : String) (r : RawItem) (d : ℤ) : WItem :=
  ⟨r.title, r.link, r.pubDate, r.summary, r.image, r.author, r.categories,
    source, canonicalize_url r.link, normalize_title r.title, d, none⟩

/-- The flattening loop of lines 81–99. -/
def collectItems (data : FeedData) : List WItem :=
  (data.feeds.map (fun f => f.items.filterMap (enrich f.source))).flatten

/-- Stable descending insertion: `x` goes in front of the first element
whose key is `≤` its own. -/
def insertDesc (key : α → ℤ) (x : α) : List α → List α
  | [] => [x]
  | y :: ys => if key y ≤ key x then x :: y :: ys else y :: insertDesc key x ys

/-- Stable sort, descending by `key`.  Models Python
`list.sort(key=…, reverse=True)`: Timsort is stable and `reverse=True`
preserves the original order of equal keys, and a stable sort of a list
under a fixed total preorder is unique, so any stable model computes the
same list. -/
def sortDesc (key : α → ℤ) : List α → List α
  | [] => []
  | x :: xs => insertDesc key x (sortDesc key xs)

/-- The fuzzy-duplicate test of lines 116–119: normalized-title
similarity at least 92 and publish dates at most six hours
(21600 seconds) apart. -/
def fuzzyMatch (item existing : WItem) : Bool :=
  (92 ≤ fuzz_ratio item.normalized_title existing.normalized_title)
    && ((item.parsed_pubDate - existing.parsed_pubDate).natAbs ≤ 21600)

/-- Rule b (lines 114–122): scan current winners in insertion order and
stop at the first fuzzy match. -/
def findFuzzy (item : WItem) : List (Option String × WItem) → Option WItem
  | [] => none
  | e :: rest => if fuzzyMatch item e.2 then some e.2 else findFuzzy item rest

/-- Dict lookup in the `deduplicated_items` table, modelled as an
association list in insertion order (Python 3.7+ dict semantics:
iteration follows insertion order, `del` removes the slot, assigning a
fresh key appends at the end). -/
def lookupTable (t : List (Option String × WItem)) (k : Option String) : Option WItem :=
  (t.find? (fun e => decide (e.1 = k))).map (fun e => e.2)

/-- Lines 131–138.  In Python, `merged = existing_item.get('merged_from', [])`
aliases the existing winner's own list when the key is present, so after
`merged.append(...)` the subsequent
`merged.extend(existing_item['merged_from'])` extends that list with
itself, duplicating it.  With the key absent, `merged` is a fresh empty
list and the `extend` is skipped. -/
def mergedUpdate (existing : WItem) : List Prov :=
  match existing.merged_from with
  | none => [⟨existing.source, existing.link⟩]
  | some l =>
    let l2 := l ++ [⟨existing.source, existing.link⟩]
    l2 ++ l2

/-- Line 138: `item['merged_from'] = merged`. -/
def withMerged (item : WItem) (m : List Prov) : WItem :=
  ⟨item.title, item.link, item.pubDate, item.summary, item.image,
   item.author, item.categories, item.source, item.canonical_url,
   item.normalized_title, item.parsed_pubDate, some m⟩

/-- One iteration of the loop of lines 107–146 for the current `item`:
exact canonical-URL match first, else the fuzzy scan; on a duplicate,
keep the better item — if the new item wins it absorbs the old winner's
provenance, the old key is deleted and the new item is inserted at its
own canonical URL; otherwise the table is unchanged.  A non-duplicate is
appended at its canonical URL. -/
def dedupStep (prio : List String) (table : List (Option String × WItem)) (item : WItem) :
    List (Option String × WItem) :=
  let found :=
    match lookupTable table item.canonical_url with
    | some e => some e
    | none => findFuzzy item table
  match found with
  | none => table ++ [(item.canonical_url, item)]
  | some existing =>
    if get_best_item_snd existing item prio then
      (table.eraseP (fun e => decide (e.1 = existing.canonical_url)))
        ++ [(item.canonical_url, withMerged item (mergedUpdate existing))]
    else table

/-- Ascending stable insertion for strings. -/
def insertAsc (x : String) : List String → List String
  | [] => [x]
  | y :: ys => if x ≤ y then x :: y :: ys else y :: insertAsc x ys

/-- Ascending sort for strings (Python `sorted`, codepoint order). -/
def sortStrings : List String → List String
  | [] => []
  | x :: xs => insertAsc x (sortStrings xs)

/-- Line 168: `sorted(list(set([cat.lower() for cat in cats if cat])))`. -/
def cleanCategories (cats : List String) : List String :=
  sortStrings ((cats.filterMap (fun c => if c = "" then none else some (lowerStr c))).dedup)

/-- The post-processing loop of lines 152–173: set `primary_category`,
clean the categories (merged-from items contribute nothing, lines
162–166), and delete the helper fields. -/
def finalize (topic : String) (w : WItem) : OutItem :=
  ⟨w.title, w.link, w.pubDate, w.summary, w.image, w.author,
    cleanCategories w.categories, w.source, w.merged_from, topic⟩

/-- Key of the final sort (line 176): `parser.isoparse(x['pubDate'])`.
Every item that survives deduplication has a parseable `pubDate`
(it passed enrichment), so the default is never reached. -/
def outKey (o : OutItem) : ℤ := (isoparse o.pubDate).getD dtMin

/-- `process_feed_data` (lines 73–187): collect and enrich, sort newest
first, run the dedup loop, post-process, re-sort by publish date
descending, then truncate to `max_items` and set `overflow_truncated`. -/
def process_feed_data (data : FeedData) : ProcessedTopic :=
  let all_items := sortDesc (fun w => w.parsed_pubDate) (collectItems data)
  let table := all_items.foldl (dedupStep data.priority_source_order) []
  let final_items := sortDesc outKey ((table.map (fun e => e.2)).map (finalize data.topic))
  ⟨data.topic, decide (data.max_items < final_items.length), final_items.take data.max_items⟩

/-! ## `scheduler_locks.py` -/

/-- One `_locks` entry: the state of the `threading.Lock` plus the
timestamp stored beside it.  `locked = true` means some thread holds the
lock. -/
structure LockEntry where
  locked : Bool
  ts : ℤ
deriving DecidableEq, Repr

/-- `lock.acquire(blocking=False)`: CPython locks have no owner, so on a
held lock this returns `False` whichever thread holds it; on a free lock
it takes it and returns `True`. -/
def tryAcquire (e : LockEntry) : Bool × LockEntry :=
  if e.locked then (false, e) else (true, ⟨true, e.ts⟩)

/-- `_STALE_AFTER_SECONDS`. -/
def STALE_AFTER_SECONDS : ℤ := 30

/-- `acquire_lock` for one key, with the clock passed explicitly.
`entry` is the key's current `(lock, timestamp)` pair — `none` for an
unknown key, for which a fresh unlocked pair with timestamp `0.0` is
created (lines 19–20).  If the lock is held and either the override is
off or the lock is not yet stale (`now - ts > 30` fails), return false;
otherwise fall through to the non-blocking acquire, updating the
timestamp only on success (lines 35–40). -/
def acquire_lock (entry : Option LockEntry) (now : ℤ) (force_if_stale : Bool) :
    Bool × LockEntry :=
  let e := entry.getD ⟨false, 0⟩
  if e.locked ∧ ¬(force_if_stale ∧ STALE_AFTER_SECONDS < now - e.ts) then
    (false, e)
  else
    let r := tryAcquire e
    (r.1, if r.1 then ⟨true, now⟩ else r.2)

/-- `release_lock`: looks the key up and releases only when present and
locked; unknown keys and unlocked entries are left untouched and no
error is raised. -/
def release_lock (entry : Option LockEntry) : Option LockEntry :=
  match entry with
  | none => none
  | some e => some (if e.locked then ⟨false, e.ts⟩ else e)

/-! ## Concrete inputs used by the claim theorems -/

/-- The "ge" item of the spec's concrete scenario. -/
def geItem : RawItem :=
  ⟨"Flamengo vence", "https://ge.com/a", "2025-01-01T10:00:00Z", none, none, none, []⟩

/-- The "lance" item of the spec's concrete scenario. -/
def lanceItem : RawItem :=
  ⟨"Flamengo vence o jogo", "https://lance.com.br/b", "2025-01-01T11:00:00Z", none, none, none, []⟩

/-- The spec's concrete scenario: priority ["ge", "lance"], one item per
feed. -/
def c2Data : FeedData :=
  ⟨"futebol", ["ge", "lance"], 200, [⟨"ge", [geItem]⟩, ⟨"lance", [lanceItem]⟩]⟩

/-- Shared link of the three-way merge chain. -/
def c3L : String := "https://x.com/noticia"

/-- Newest item of the chain, from the lowest-priority source "c". -/
def c3ItemC : RawItem := ⟨"Titulo", c3L, "2025-01-01T12:00:00Z", none, none, none, []⟩

/-- Middle item of the chain, source "b". -/
def c3ItemB : RawItem := ⟨"Titulo", c3L, "2025-01-01T11:00:00Z", none, none, none, []⟩

/-- Oldest item of the chain, from the top-priority source "a". -/
def c3ItemA : RawItem := ⟨"Titulo", c3L, "2025-01-01T10:00:00Z", none, none, none, []⟩

/-- A chain of three exact duplicates of increasing priority, processed
newest ("c", worst) first, so that the winner is replaced twice:
"b" replaces "c", then "a" replaces "b". -/
def c3Data : FeedData :=
  ⟨"t", ["a", "b", "c"], 200,
    [⟨"c", [c3ItemC]⟩, ⟨"b", [c3ItemB]⟩, ⟨"a", [c3ItemA]⟩]⟩

/-- Item A of the priority pair: top-priority source "ge". -/
def c4A : RawItem :=
  ⟨"Flamengo vence", "https://ge.com/x", "2025-01-01T10:00:00Z", none, none, none, []⟩

/-- Item B of the priority pair: same title and date as `c4A` (so the
two are judged the same story by the fuzzy rule), different link,
second-priority source "lance". -/
def c4B : RawItem :=
  ⟨"Flamengo vence", "https://lance.com.br/y", "2025-01-01T10:00:00Z", none, none, none, []⟩

/-- Batch in which A's feed is listed first, so A (equal dates, stable
sort) is processed before B. -/
def c4Data : FeedData :=
  ⟨"futebol", ["ge", "lance"], 200, [⟨"ge", [c4A]⟩, ⟨"lance", [c4B]⟩]⟩

/-- A twin of `c4A` contributed by the "lance" feed: same link, so the
pair collapses through the exact canonical-URL rule. -/
def c4eB : RawItem :=
  ⟨"Flamengo vence", "https://ge.com/x", "2025-01-01T10:00:00Z", none, none, none, []⟩

/-- First truncation-test item: oldest, distinct link, unrelated
title. -/
def c7a : RawItem := ⟨"abc", "https://a.com/1", "2025-01-01T00:00:00Z", none, none, none, []⟩

/-- Second truncation-test item: twelve hours newer. -/
def c7b : RawItem := ⟨"xyz", "https://b.com/2", "2025-01-01T12:00:00Z", none, none, none, []⟩

/-- Two independent items with `max_items = 1`, forcing truncation. -/
def c7Data : FeedData := ⟨"t", [], 1, [⟨"s1", [c7a]⟩, ⟨"s2", [c7b]⟩]⟩

/-- The final sorted output list before truncation: the value of
`final_items` after the re-sort at line 176 and before the slice at
line 178. -/
def finalSorted (data : FeedData) : List OutItem :=
  sortDesc outKey
    ((((sortDesc (fun w => w.parsed_pubDate) (collectItems data)).foldl
        (dedupStep data.priority_source_order) []).map (fun e => e.2)).map
      (finalize data.topic))

/-- An empty-link item with a title dissimilar from `c10b`'s. -/
def c10a : RawItem := ⟨"abc", "", "2025-01-01T00:00:00Z", none, none, none, []⟩

/-- Another empty-link item, twelve hours later (outside the fuzzy
window) and with an unrelated title. -/
def c10b : RawItem := ⟨"xyz", "", "2025-01-01T12:00:00Z", none, none, none, []⟩

/-- Two empty-link items that share the canonical key `None` although
they could never fuzzy-match (similarity 0, gap 12 h). -/
def c10Data : FeedData :=
  ⟨"t", [], 200, [⟨"s1", [c10a]⟩, ⟨"s2", [c10b]⟩]⟩

/-- Invariant of the `deduplicated_items` table: every entry is keyed by
its item's `canonical_url`, that field is the canonicalization of the
item's `link`, and keys are pairwise distinct. -/
def goodTable (t : List (Option String × WItem)) : Prop :=
  (∀ e ∈ t, e.2.canonical_url = e.1 ∧ e.2.canonical_url = canonicalize_url e.2.link)
    ∧ (t.map (fun e => e.1)).Nodup

end RSSPrime

namespace RSSPrime

/-! ## Permutation and sortedness of the stable sorts -/

lemma insertDesc_perm (key : α → ℤ) (x : α) (l : List α) :
    List.Perm (insertDesc key x l) (x :: l) := by
  induction l with
  | nil => simp [insertDesc]
  | cons y ys ih =>
    simp only [insertDesc]
    by_cases h : key y ≤ key x
    · rw [if_pos h]
    · rw [if_neg h]
      exact ((ih.cons y).trans (List.Perm.swap x y ys))

lemma sortDesc_perm (key : α → ℤ) (l : List α) : List.Perm (sortDesc key l) l := by
  induction l with
  | nil => simp [sortDesc]
  | cons x xs ih =>
    exact (insertDesc_perm key x (sortDesc key xs)).trans (ih.cons x)

lemma mem_insertDesc {key : α → ℤ} {x y : α} {l : List α}
    (h : y ∈ insertDesc key x l) : y = x ∨ y ∈ l := by
  have := (insertDesc_perm key x l).mem_iff.mp h
  simpa using this

lemma pairwise_insertDesc {key : α → ℤ} {x : α} {l : List α}
    (h : l.Pairwise (fun a b => key b ≤ key a)) :
    (insertDesc key x l).Pairwise (fun a b => key b ≤ key a) := by
  induction l with
  | nil => simp [insertDesc]
  | cons y ys ih =>
    rcases List.pairwise_cons.mp h with ⟨hy, hys⟩
    simp only [insertDesc]
    by_cases hxy : key y ≤ key x
    · rw [if_pos hxy]
      refine List.pairwise_cons.mpr ⟨?_, h⟩
      intro z hz
      rcases List.mem_cons.mp hz with rfl | hz
      · exact hxy
      · exact le_trans (hy z hz) hxy
    · rw [if_neg hxy]
      refine List.pairwise_cons.mpr ⟨?_, ih hys⟩
      intro z hz
      rcases mem_insertDesc hz with rfl | hz
      · exact le_of_lt (lt_of_not_le hxy)
      · exact hy z hz

lemma sortDesc_pairwise (key : α → ℤ) (l : List α) :
    (sortDesc key l).Pairwise (fun a b => key b ≤ key a) := by
  induction l with
  | nil => simp [sortDesc]
  | cons x xs ih => exact pairwise_insertDesc ih

/-! ## Preservation of the table invariant by the dedup loop -/

lemma findFuzzy_mem {item x : WItem} {t : List (Option String × WItem)}
    (h : findFuzzy item t = some x) : ∃ k, (k, x) ∈ t := by
  induction t with
  | nil => simp [findFuzzy] at h
  | cons e rest ih =>
    simp only [findFuzzy] at h
    by_cases hm : fuzzyMatch item e.2
    · rw [if_pos hm] at h
      exact ⟨e.1, by simp [← Option.some_inj.mp h]⟩
    · rw [if_neg hm] at h
      rcases ih h with ⟨k, hk⟩
      exact ⟨k, List.mem_cons_of_mem e hk⟩

lemma lookupTable_none {t : List (Option String × WItem)} {k : Option String}
    (h : lookupTable t k = none) : ∀ e ∈ t, e.1 ≠ k := by
  intro e he
  unfold lookupTable at h
  cases hfind : List.find? (fun e => decide (e.1 = k)) t with
  | some v => rw [hfind] at h; simp at h
  | none =>
    have := List.find?_eq_none.mp hfind e he
    simpa using this

lemma lookupTable_some {t : List (Option String × WItem)} {k : Option String} {x : WItem}
    (h : lookupTable t k = some x) : ∃ e ∈ t, e.1 = k ∧ e.2 = x := by
  unfold lookupTable at h
  cases hfind : List.find? (fun e => decide (e.1 = k)) t with
  | none => rw [hfind] at h; simp at h
  | some v =>
    rw [hfind] at h
    refine ⟨v, List.mem_of_find?_eq_some hfind, ?_, by simpa using h⟩
    have := List.find?_some hfind
    simpa using this

lemma not_mem_map_fst_eraseP {t : List (Option String × WItem)} {K : Option String}
    (hn : (t.map (fun e => e.1)).Nodup) (he : ∃ e ∈ t, e.1 = K) :
    K ∉ ((t.eraseP (fun e => decide (e.1 = K))).map (fun e => e.1)) := by
  induction t with
  | nil => simp at he
  | cons x rest ih =>
    simp only [List.map_cons, List.nodup_cons] at hn
    by_cases hx : x.1 = K
    · rw [List.eraseP_cons_of_pos (by simpa using hx)]
      intro hmem
      exact hn.1 (by
        rcases List.mem_map.mp hmem with ⟨e, he', rfl⟩
        rw [hx]
        exact List.mem_map.mpr ⟨e, he', rfl⟩)
    · rw [List.eraseP_cons_of_neg (by simpa using hx)]
      rcases he with ⟨e, he', hek⟩
      rcases List.mem_cons.mp he' with rfl | he''
      · exact absurd hek hx
      · intro hmem
        rcases List.mem_map.mp hmem with ⟨e2, he2, hk2⟩
        rcases List.mem_cons.mp he2 with rfl | he2'
        · exact hx hk2
        · exact ih hn.2 ⟨e, he'', hek⟩ (List.mem_map.mpr ⟨e2, he2', hk2⟩)

lemma goodTable_step {prio : List String} {t : List (Option String × WItem)} {item : WItem}
    (hi : item.canonical_url = canonicalize_url item.link) (ht : goodTable t) :
    goodTable (dedupStep prio t item) := by
  rcases ht with ⟨hent, hkeys⟩
  unfold dedupStep
  cases hl : lookupTable t item.canonical_url with
  | some e =>
    simp only
    by_cases hwin : get_best_item_snd e item prio
    · rw [if_pos hwin]
      rcases lookupTable_some hl with ⟨e0, he0, hk0, hv0⟩
      have hecanon : e.canonical_url = item.canonical_url := by
        rw [← hv0, (hent e0 he0).1, hk0]
      constructor
      · intro f hf
        rcases List.mem_append.mp hf with hf | hf
        · exact hent f (List.Sublist.mem hf (List.eraseP_sublist t))
        · rcases List.mem_singleton.mp hf with rfl
          exact ⟨rfl, hi⟩
      · rw [List.map_append]
        refine List.Nodup.append ?_ (by simp) ?_
        · exact hkeys.sublist ((List.eraseP_sublist t).map _)
        · intro k hk1 hk2
          simp only [List.map_cons, List.map_nil, List.mem_cons, List.not_mem_nil,
            or_false] at hk2
          subst hk2
          rw [hecanon] at hk1
          exact not_mem_map_fst_eraseP hkeys ⟨e0, he0, hk0⟩ hk1
    · rw [if_neg hwin]
      exact ⟨hent, hkeys⟩
  | none =>
    cases hf : findFuzzy item t with
    | some e =>
      simp only
      by_cases hwin : get_best_item_snd e item prio
      · rw [if_pos hwin]
        constructor
        · intro f hfm
          rcases List.mem_append.mp hfm with hfm | hfm
          · exact hent f (List.Sublist.mem hfm (List.eraseP_sublist t))
          · rcases List.mem_singleton.mp hfm with rfl
            exact ⟨rfl, hi⟩
        · rw [List.map_append]
          refine List.Nodup.append ?_ (by simp) ?_
          · exact hkeys.sublist ((List.eraseP_sublist t).map _)
          · intro k hk1 hk2
            rcases List.mem_singleton.mp hk2 with rfl
            have : item.canonical_url ∈ (t.map (fun e => e.1)) := by
              rcases List.mem_map.mp ((List.Sublist.map _ (List.eraseP_sublist t)).mem hk1) with ⟨f, hfmem, hfk⟩
              exact List.mem_map.mpr ⟨f, hfmem, hfk⟩
            rcases List.mem_map.mp this with ⟨f, hfmem, hfk⟩
            exact lookupTable_none hl f hfmem hfk
      · rw [if_neg hwin]
        exact ⟨hent, hkeys⟩
    | none =>
      simp only
      constructor
      · intro f hfm
        rcases List.mem_append.mp hfm with hfm | hfm
        · exact hent f hfm
        · rcases List.mem_singleton.mp hfm with rfl
          exact ⟨rfl, hi⟩
      · rw [List.map_append]
        refine List.Nodup.append hkeys (by simp) ?_
        intro k hk1 hk2
        rcases List.mem_singleton.mp hk2 with rfl
        rcases List.mem_map.mp hk1 with ⟨f, hfmem, hfk⟩
        exact lookupTable_none hl f hfmem hfk

lemma goodTable_foldl {prio : List String} {items : List WItem}
    {t : List (Option String × WItem)}
    (hit : ∀ w ∈ items, w.canonical_url = canonicalize_url w.link) (ht : goodTable t) :
    goodTable (items.foldl (dedupStep prio) t) := by
  induction items generalizing t with
  | nil => exact ht
  | cons w ws ih =>
    exact ih (fun x hx => hit x (List.mem_cons_of_mem w hx))
      (goodTable_step (hit w (List.mem_cons_self w ws)) ht)

lemma collectItems_canonical {data : FeedData} :
    ∀ w ∈ collectItems data, w.canonical_url = canonicalize_url w.link := by
  intro w hw
  simp only [collectItems, List.mem_flatten, List.mem_map] at hw
  rcases hw with ⟨l, ⟨f, _, rfl⟩, hwl⟩
  rcases List.mem_filterMap.mp hwl with ⟨r, _, hr⟩
  unfold enrich at hr
  cases hp : isoparse r.pubDate with
  | none => rw [hp] at hr; simp at hr
  | some d =>
    rw [hp] at hr
    cases Option.some_inj.mp hr
    rfl

/-! ## Character-level lemmas about lowercasing -/

lemma lowerChar_cases (c : Char) :
    lowerChar c = c ∨ ∃ p ∈ lowerTable, p.1 = c ∧ lowerChar c = p.2 := by
  unfold lowerChar
  cases hf : lowerTable.find? (fun p => p.1 = c) with
  | none => exact Or.inl rfl
  | some p =>
    refine Or.inr ⟨p, List.mem_of_find?_eq_some hf, ?_, by simp⟩
    simpa using List.find?_some hf

lemma lowerChar_self_or_lower (c : Char) :
    lowerChar c = c ∨ (lowerChar c).isLower = true := by
  rcases lowerChar_cases c with h | ⟨p, hp, _, he⟩
  · exact Or.inl h
  · refine Or.inr ?_
    rw [he]
    revert hp
    have : ∀ q ∈ lowerTable, q.2.isLower = true := by decide
    exact this p

lemma lowerChar_of_isLower {c : Char} (h : c.isLower = true) : lowerChar c = c := by
  rcases lowerChar_cases c with h1 | ⟨p, hp, hc, _⟩
  · exact h1
  · have : ∀ q ∈ lowerTable, q.1.isLower = false := by decide
    rw [← hc] at h
    rw [this p hp] at h
    exact absurd h (by decide)

lemma lowerChar_idem (c : Char) : lowerChar (lowerChar c) = lowerChar c := by
  rcases lowerChar_self_or_lower c with h | h
  · rw [h]
    exact h
  · exact lowerChar_of_isLower h

lemma lowerChar_eq_special {c c0 : Char} (h0 : c0.isLower = false)
    (h : lowerChar c = c0) : c = c0 := by
  rcases lowerChar_self_or_lower c with h1 | h1
  · rw [← h1, h]
  · rw [h] at h1
    rw [h1] at h0
    exact absurd h0 (by decide)

lemma mem_lowerL_special {c0 : Char} (h0 : c0.isLower = false) (hfix : lowerChar c0 = c0)
    {l : List Char} : c0 ∈ lowerL l ↔ c0 ∈ l := by
  unfold lowerL
  constructor
  · intro h
    rcases List.mem_map.mp h with ⟨c, hc, he⟩
    rw [← lowerChar_eq_special h0 he]
    exact hc
  · intro h
    exact List.mem_map.mpr ⟨c0, h, hfix⟩

lemma lowerL_idem (l : List Char) : lowerL (lowerL l) = lowerL l := by
  unfold lowerL
  rw [List.map_map]
  exact List.map_congr_left (fun c _ => lowerChar_idem c)

lemma schemeChar_lowerChar {c : Char} (h : schemeChar c = true) :
    schemeChar (lowerChar c) = true := by
  rcases lowerChar_cases c with h1 | ⟨p, hp, _, he⟩
  · rw [h1]
    exact h
  · rw [he]
    have : ∀ q ∈ lowerTable, schemeChar q.2 = true := by decide
    exact this p hp

lemma netlocChar_lowerChar {c : Char} (h : netlocChar c = true) :
    netlocChar (lowerChar c) = true := by
  rcases lowerChar_cases c with h1 | ⟨p, hp, _, he⟩
  · rw [h1]
    exact h
  · rw [he]
    have : ∀ q ∈ lowerTable, netlocChar q.2 = true := by decide
    exact this p hp

lemma cleanChar_lowerChar {c : Char} (h : cleanChar c = true) :
    cleanChar (lowerChar c) = true := by
  rcases lowerChar_cases c with h1 | ⟨p, hp, _, he⟩
  · rw [h1]
    exact h
  · rw [he]
    have : ∀ q ∈ lowerTable, cleanChar q.2 = true := by decide
    exact this p hp

lemma isAlpha_lowerChar {c : Char} (h : c.isAlpha = true) :
    (lowerChar c).isAlpha = true := by
  rcases lowerChar_cases c with h1 | ⟨p, hp, _, he⟩
  · rw [h1]
    exact h
  · rw [he]
    have : ∀ q ∈ lowerTable, q.2.isAlpha = true := by decide
    exact this p hp

lemma schemeChar_clean {c : Char} (h : schemeChar c = true) : cleanChar c = true := by
  unfold cleanChar
  simp only [decide_eq_true_eq]
  intro hor
  rcases hor with rfl | rfl | rfl <;> exact absurd h (by decide)

/-! ## Splitter lemmas for the canonicalization proof -/

lemma breakAt_not_mem {c : Char} {l : List Char} (h : c ∉ l) : breakAt c l = (l, none) := by
  induction l with
  | nil => rfl
  | cons x xs ih =>
    have hx : ¬ x = c := fun hx => h (hx ▸ List.mem_cons_self x xs)
    have hr := ih (fun hm => h (List.mem_cons_of_mem x hm))
    simp [breakAt, hx, hr]

lemma breakAt_append {c : Char} {l1 l2 : List Char} (h : c ∉ l1) :
    breakAt c (l1 ++ c :: l2) = (l1, some l2) := by
  induction l1 with
  | nil => simp [breakAt]
  | cons x xs ih =>
    have hx : ¬ x = c := fun hx => h (hx ▸ List.mem_cons_self x xs)
    have hr := ih (fun hm => h (List.mem_cons_of_mem x hm))
    simp [breakAt, hx, hr]

lemma takeWhile_append_all {p : Char → Bool} {l1 l2 : List Char}
    (h1 : ∀ x ∈ l1, p x = true) (h2 : ∀ x, l2.head? = some x → p x = false) :
    (l1 ++ l2).takeWhile p = l1 ∧ (l1 ++ l2).dropWhile p = l2 := by
  induction l1 with
  | nil =>
    cases l2 with
    | nil => exact ⟨rfl, rfl⟩
    | cons y ys =>
      simp [List.takeWhile_cons, List.dropWhile_cons, h2 y rfl]
  | cons x xs ih =>
    have hx := h1 x (List.mem_cons_self x xs)
    have := ih (fun z hz => h1 z (List.mem_cons_of_mem x hz))
    simp [List.takeWhile_cons, List.dropWhile_cons, hx, this.1, this.2]

lemma dropWhile_head_not {p : Char → Bool} {l : List Char} :
    ∀ c, (l.dropWhile p).head? = some c → p c = false := by
  induction l with
  | nil => intro c hc; simp at hc
  | cons x xs ih =>
    intro c hc
    by_cases hx : p x
    · rw [List.dropWhile_cons, if_pos hx] at hc
      exact ih c hc
    · rw [List.dropWhile_cons, if_neg hx] at hc
      rcases Option.some_inj.mp hc with rfl
      exact Bool.eq_false_iff.mpr hx

lemma dropWhile_eq_self {p : Char → Bool} {l : List Char}
    (h : ∀ c, l.head? = some c → p c = false) : l.dropWhile p = l := by
  cases l with
  | nil => rfl
  | cons x xs =>
    rw [List.dropWhile_cons, if_neg (by simp [h x rfl])]

lemma head?_append_ne {α : Type} {m t : List α} (h : m ≠ []) :
    (m ++ t).head? = m.head? := by
  cases m with
  | nil => exact absurd rfl h
  | cons a l => rfl

lemma rstripSlash_append (l : List Char) :
    ∃ t, l = rstripSlash l ++ t ∧ ∀ x ∈ t, x = '/' := by
  refine ⟨(l.reverse.takeWhile (fun c => c = '/')).reverse, ?_, ?_⟩
  · conv_lhs => rw [← List.reverse_reverse l,
      ← @List.takeWhile_append_dropWhile _ (fun c => c = '/') l.reverse]
    rw [List.reverse_append]
    rfl
  · intro x hx
    rw [List.mem_reverse] at hx
    simpa using List.mem_takeWhile_imp hx

lemma rstripSlash_head {l : List Char} (h : rstripSlash l ≠ []) :
    (rstripSlash l).head? = l.head? := by
  obtain ⟨t, hl, _⟩ := rstripSlash_append l
  conv_rhs => rw [hl]
  exact (head?_append_ne h).symm

lemma rstripSlash_idem (l : List Char) : rstripSlash (rstripSlash l) = rstripSlash l := by
  unfold rstripSlash
  rw [List.reverse_reverse]
  congr 1
  exact dropWhile_eq_self (fun c hc => dropWhile_head_not c hc)

lemma rstripSlash_lowerL (l : List Char) :
    rstripSlash (lowerL (rstripSlash l)) = lowerL (rstripSlash l) := by
  unfold rstripSlash lowerL
  rw [List.map_reverse, List.reverse_reverse]
  congr 1
  refine dropWhile_eq_self ?_
  intro c hc
  rw [List.head?_map] at hc
  cases hm : (l.reverse.dropWhile (fun c => c = '/')).head? with
  | none =>
    rw [hm] at hc
    exact absurd hc (by simp)
  | some c0 =>
    rw [hm] at hc
    have hcc : c = lowerChar c0 := by
      simpa using hc.symm
    have h0 := dropWhile_head_not c0 hm
    subst hcc
    simp only [decide_eq_false_iff_not] at h0 ⊢
    intro hcs
    exact h0 (lowerChar_eq_special (by decide) hcs)

/-! ## Reassembly and reparse of a standard URL -/

lemma urlunparse_std (scheme netloc path : List Char) (hs1 : scheme ≠ [])
    (hn1 : netloc ≠ []) (hp0 : path = [] ∨ path.head? = some '/') :
    urlunparse ⟨scheme, netloc, path, [], [], []⟩
      = scheme ++ ':' :: '/' :: '/' :: (netloc ++ path) := by
  have hinner : ¬(path ≠ [] ∧ path.head? ≠ some '/') := by
    rcases hp0 with h | h
    · intro hc
      exact hc.1 h
    · intro hc
      exact hc.2 h
  simp [urlunparse, urlunsplit, hn1, hs1, hinner]

lemma all_mem_of_all {p : Char → Bool} {l : List Char} (h : l.all p = true) :
    ∀ x ∈ l, p x = true :=
  List.all_eq_true.mp h

lemma urlparse_roundtrip (scheme netloc path : List Char)
    (hs1 : scheme ≠ []) (hs2 : headAlpha scheme = true) (hs3 : scheme.all schemeChar = true)
    (hs4 : lowerL scheme = scheme)
    (hn2 : ∀ x ∈ netloc, netlocChar x = true)
    (hnc : ∀ x ∈ netloc, cleanChar x = true)
    (hb : ¬ (('[' ∈ netloc ∧ ']' ∉ netloc) ∨ (']' ∈ netloc ∧ '[' ∉ netloc)))
    (hp0 : path = [] ∨ path.head? = some '/')
    (hpc : ∀ x ∈ path, cleanChar x = true)
    (hq : '?' ∉ path) (hh : '#' ∉ path) (hsc : ';' ∉ path) :
    urlparseE (scheme ++ ':' :: '/' :: '/' :: (netloc ++ path))
      = .ok ⟨scheme, netloc, path, [], [], []⟩ := by
  have hclean : removeUnsafe (scheme ++ ':' :: '/' :: '/' :: (netloc ++ path))
      = scheme ++ ':' :: '/' :: '/' :: (netloc ++ path) := by
    unfold removeUnsafe
    rw [List.filter_eq_self]
    intro a ha
    rcases List.mem_append.mp ha with ha | ha
    · exact schemeChar_clean (all_mem_of_all hs3 a ha)
    · rcases List.mem_cons.mp ha with rfl | ha
      · decide
      · rcases List.mem_cons.mp ha with rfl | ha
        · decide
        · rcases List.mem_cons.mp ha with rfl | ha
          · decide
          · rcases List.mem_append.mp ha with ha | ha
            · exact hnc a ha
            · exact hpc a ha
  have hnotcolon : ':' ∉ scheme := by
    intro hc
    exact absurd (all_mem_of_all hs3 ':' hc) (by decide)
  have hsplit : splitScheme (scheme ++ ':' :: '/' :: '/' :: (netloc ++ path))
      = (scheme, '/' :: '/' :: (netloc ++ path)) := by
    unfold splitScheme
    rw [breakAt_append hnotcolon]
    show (if scheme ≠ [] ∧ headAlpha scheme = true ∧ scheme.all schemeChar = true
        then (lowerL scheme, '/' :: '/' :: (netloc ++ path))
        else (([] : List Char), scheme ++ ':' :: '/' :: '/' :: (netloc ++ path)))
        = (scheme, '/' :: '/' :: (netloc ++ path))
    rw [if_pos ⟨hs1, hs2, hs3⟩, hs4]
  have hhead : ∀ x, path.head? = some x → netlocChar x = false := by
    intro x hx
    rcases hp0 with h | h
    · rw [h] at hx
      exact absurd hx (by simp)
    · rw [h] at hx
      rcases Option.some_inj.mp hx with rfl
      decide
  have htd := takeWhile_append_all hn2 hhead
  have hsplitE : urlsplitE (scheme ++ ':' :: '/' :: '/' :: (netloc ++ path))
      = .ok ⟨scheme, netloc, path, [], []⟩ := by
    simp only [urlsplitE]
    rw [hclean, hsplit]
    simp [htd.1, htd.2, hb, breakAt_not_mem hh, breakAt_not_mem hq]
  unfold urlparseE
  rw [hsplitE]
  simp [hsc]

lemma lowerL_assembled {scheme netloc path : List Char} (hs4 : lowerL scheme = scheme) :
    lowerL (scheme ++ ':' :: '/' :: '/' :: (netloc ++ path))
      = scheme ++ ':' :: '/' :: '/' :: (lowerL netloc ++ lowerL path) := by
  have h1 : lowerChar ':' = ':' := by decide
  have h2 : lowerChar '/' = '/' := by decide
  unfold lowerL at hs4 ⊢
  simp [hs4, h1, h2]

/-- Canonicalizing an already-canonical standard URL is the identity:
the argument has the assembled shape `scheme://netloc path`, is already
lowercase, has no trailing slash and none of the delimiter characters
`? # ;` that would re-split. -/
lemma canonicalize_assembled (scheme netloc path : List Char)
    (hs1 : scheme ≠ []) (hs2 : headAlpha scheme = true) (hs3 : scheme.all schemeChar = true)
    (hs4 : lowerL scheme = scheme)
    (hn1 : netloc ≠ []) (hn2 : ∀ x ∈ netloc, netlocChar x = true)
    (hnc : ∀ x ∈ netloc, cleanChar x = true)
    (hb : ¬ (('[' ∈ netloc ∧ ']' ∉ netloc) ∨ (']' ∈ netloc ∧ '[' ∉ netloc)))
    (hn4 : lowerL netloc = netloc)
    (hp0 : path = [] ∨ path.head? = some '/')
    (hpc : ∀ x ∈ path, cleanChar x = true)
    (hq : '?' ∉ path) (hh : '#' ∉ path) (hsc : ';' ∉ path)
    (hp4 : lowerL path = path) (hrs : rstripSlash path = path) :
    canonicalize_url (String.mk (scheme ++ ':' :: '/' :: '/' :: (netloc ++ path)))
      = some (String.mk (scheme ++ ':' :: '/' :: '/' :: (netloc ++ path))) := by
  have hne2 : String.mk (scheme ++ ':' :: '/' :: '/' :: (netloc ++ path)) ≠ "" := by
    intro h
    have hd : scheme ++ ':' :: '/' :: '/' :: (netloc ++ path) = [] := congrArg String.data h
    exact hs1 (List.append_eq_nil.mp hd).1
  have hparse : urlparseE (String.mk (scheme ++ ':' :: '/' :: '/' :: (netloc ++ path))).data
      = .ok ⟨scheme, netloc, path, [], [], []⟩ :=
    urlparse_roundtrip scheme netloc path hs1 hs2 hs3 hs4 hn2 hnc hb hp0 hpc hq hh hsc
  unfold canonicalize_url
  rw [if_neg hne2, hparse]
  show some (String.mk (lowerL
      (urlunparse ⟨scheme, netloc, rstripSlash path, [], [], []⟩))) = _
  rw [hrs, urlunparse_std scheme netloc path hs1 hn1 hp0, lowerL_assembled hs4, hn4, hp4]

/-! ## Evaluation lemmas for two-item batches -/

lemma enrich_eq {s : String} {r : RawItem} {d : ℤ} (h : isoparse r.pubDate = some d) :
    enrich s r = some (enriched s r d) := by
  unfold enrich enriched
  rw [h]

lemma collect_two {t : String} {prio : List String} {N : ℕ} {s1 s2 : String}
    {r1 r2 : RawItem} {d1 d2 : ℤ}
    (h1 : isoparse r1.pubDate = some d1) (h2 : isoparse r2.pubDate = some d2) :
    collectItems ⟨t, prio, N, [⟨s1, [r1]⟩, ⟨s2, [r2]⟩]⟩
      = [enriched s1 r1 d1, enriched s2 r2 d2] := by
  simp [collectItems, enrich_eq h1, enrich_eq h2]

lemma sort_two {key : α → ℤ} {w1 w2 : α} (h : key w2 ≤ key w1) :
    sortDesc key [w1, w2] = [w1, w2] := by
  simp [sortDesc, insertDesc, h]

lemma dedup_step_nil {prio : List String} {w : WItem} :
    dedupStep prio [] w = [(w.canonical_url, w)] := rfl

lemma dedup_two {prio : List String} {w1 w2 : WItem}
    (hk : w1.canonical_url ≠ w2.canonical_url) :
    [w1, w2].foldl (dedupStep prio) [] =
      if fuzzyMatch w2 w1 then
        (if get_best_item_snd w1 w2 prio
         then [(w2.canonical_url, withMerged w2 (mergedUpdate w1))]
         else [(w1.canonical_url, w1)])
      else [(w1.canonical_url, w1), (w2.canonical_url, w2)] := by
  simp only [List.foldl, dedup_step_nil]
  unfold dedupStep
  have hl : lookupTable [(w1.canonical_url, w1)] w2.canonical_url = none := by
    simp [lookupTable, List.find?, fun h => hk h]
  rw [hl]
  have hf : findFuzzy w2 [(w1.canonical_url, w1)]
      = if fuzzyMatch w2 w1 then some w1 else none := by
    simp [findFuzzy]
  rw [hf]
  by_cases hm : fuzzyMatch w2 w1
  · by_cases hw : get_best_item_snd w1 w2 prio
    · simp [hw, hm, List.eraseP_cons]
    · simp [hw, hm]
  · simp [hm]

lemma dedup_two_exact {prio : List String} {w1 w2 : WItem}
    (hk : w1.canonical_url = w2.canonical_url) :
    [w1, w2].foldl (dedupStep prio) [] =
      if get_best_item_snd w1 w2 prio
      then [(w2.canonical_url, withMerged w2 (mergedUpdate w1))]
      else [(w1.canonical_url, w1)] := by
  simp only [List.foldl, dedup_step_nil]
  unfold dedupStep
  have hl : lookupTable [(w1.canonical_url, w1)] w2.canonical_url = some w1 := by
    simp [lookupTable, List.find?, hk]
  rw [hl]
  by_cases hw : get_best_item_snd w1 w2 prio
  · rw [if_pos hw]
    simp [hw, List.eraseP_cons]
  · rw [if_neg hw]
    simp [hw]

lemma process_two {t : String} {prio : List String} {N : ℕ} {s1 s2 : String}
    {r1 r2 : RawItem} {d1 d2 : ℤ}
    (h1 : isoparse r1.pubDate = some d1) (h2 : isoparse r2.pubDate = some d2)
    (hd : d2 ≤ d1) (hk : canonicalize_url r1.link ≠ canonicalize_url r2.link) :
    (process_feed_data ⟨t, prio, N, [⟨s1, [r1]⟩, ⟨s2, [r2]⟩]⟩).items
      = (if fuzzyMatch (enriched s2 r2 d2) (enriched s1 r1 d1) then
          (if get_best_item_snd (enriched s1 r1 d1) (enriched s2 r2 d2) prio
           then [finalize t (withMerged (enriched s2 r2 d2) (mergedUpdate (enriched s1 r1 d1)))]
           else [finalize t (enriched s1 r1 d1)])
         else sortDesc outKey
            [finalize t (enriched s1 r1 d1), finalize t (enriched s2 r2 d2)]).take N := by
  simp only [process_feed_data]
  rw [collect_two h1 h2, sort_two hd, dedup_two hk]
  by_cases hm : fuzzyMatch (enriched s2 r2 d2) (enriched s1 r1 d1)
  · rw [if_pos hm, if_pos hm]
    by_cases hw : get_best_item_snd (enriched s1 r1 d1) (enriched s2 r2 d2) prio
    · rw [if_pos hw, if_pos hw]
      rfl
    · rw [if_neg hw, if_neg hw]
      rfl
  · rw [if_neg hm, if_neg hm]
    rfl

lemma process_two_exact {t : String} {prio : List String} {N : ℕ} {s1 s2 : String}
    {r1 r2 : RawItem} {d1 d2 : ℤ}
    (h1 : isoparse r1.pubDate = some d1) (h2 : isoparse r2.pubDate = some d2)
    (hd : d2 ≤ d1) (hk : canonicalize_url r1.link = canonicalize_url r2.link) :
    (process_feed_data ⟨t, prio, N, [⟨s1, [r1]⟩, ⟨s2, [r2]⟩]⟩).items
      = (if get_best_item_snd (enriched s1 r1 d1) (enriched s2 r2 d2) prio
         then [finalize t (withMerged (enriched s2 r2 d2) (mergedUpdate (enriched s1 r1 d1)))]
         else [finalize t (enriched s1 r1 d1)]).take N := by
  simp only [process_feed_data]
  rw [collect_two h1 h2, sort_two hd, dedup_two_exact hk]
  by_cases hw : get_best_item_snd (enriched s1 r1 d1) (enriched s2 r2 d2) prio
  · rw [if_pos hw, if_pos hw]
    rfl
  · rw [if_neg hw, if_neg hw]
    rfl

lemma sourceRank_eq {prio : List String} {s : String} {n : ℕ}
    (h : prio.findIdx? (fun x => x = s) = some n) : sourceRank prio s = n := by
  unfold sourceRank
  rw [h]
  rfl

lemma get_best_item_snd_ranks {prio : List String} {w1 w2 : WItem} {a b : ℕ}
    (h1 : sourceRank prio w1.source = a) (h2 : sourceRank prio w2.source = b)
    (hab : a ≠ b) : get_best_item_snd w1 w2 prio = decide (b < a) := by
  simp only [get_best_item_snd, h1, h2]
  simp [hab]

lemma goodTable_nil : goodTable [] := by
  constructor
  · intro e he
    simp at he
  · simp

lemma countP_le_one_of_keys {t : List (Option String × WItem)} {K : Option String}
    (hn : (t.map (fun e => e.1)).Nodup)
    (hp : ∀ e ∈ t, canonicalize_url e.2.link = K → e.1 = K) :
    t.countP (fun e => decide (canonicalize_url e.2.link = K)) ≤ 1 := by
  induction t with
  | nil => simp
  | cons x rest ih =>
    simp only [List.map_cons, List.nodup_cons] at hn
    rw [List.countP_cons]
    by_cases hx : canonicalize_url x.2.link = K
    · have hd : decide (canonicalize_url x.2.link = K) = true := by simpa using hx
      rw [hd]
      have hz : rest.countP (fun e => decide (canonicalize_url e.2.link = K)) = 0 := by
        rw [List.countP_eq_zero]
        intro e he
        simp only [decide_eq_true_eq]
        intro hek
        have h1 : e.1 = K := hp e (List.mem_cons_of_mem x he) hek
        have h2 : x.1 = K := hp x (List.mem_cons_self x rest) hx
        refine hn.1 ?_
        rw [h2, ← h1]
        exact List.mem_map.mpr ⟨e, he, rfl⟩
      simp [hz]
    · have hd : decide (canonicalize_url x.2.link = K) = false := by simpa using hx
      rw [hd]
      have := ih hn.2 (fun e he => hp e (List.mem_cons_of_mem x he))
      simpa using this

/-- At most one surviving output item canonicalizes to any given key:
the dedup table always maps distinct keys to items keyed by their own
canonical URL, and the output is a truncation of a permutation of the
table's values. -/
lemma process_countP_canonical (data : FeedData) (K : Option String) :
    ((process_feed_data data).items.countP
      (fun o => decide (canonicalize_url o.link = K))) ≤ 1 := by
  have hgood : goodTable ((sortDesc (fun w => w.parsed_pubDate) (collectItems data)).foldl
      (dedupStep data.priority_source_order) []) := by
    refine goodTable_foldl ?_ goodTable_nil
    intro w hw
    exact collectItems_canonical w
      ((sortDesc_perm (fun w => w.parsed_pubDate) (collectItems data)).mem_iff.mp hw)
  set tbl := (sortDesc (fun w => w.parsed_pubDate) (collectItems data)).foldl
      (dedupStep data.priority_source_order) [] with htbl
  have h1 : ((process_feed_data data).items.countP
      (fun o => decide (canonicalize_url o.link = K)))
      ≤ ((sortDesc outKey ((tbl.map (fun e => e.2)).map (finalize data.topic))).countP
          (fun o => decide (canonicalize_url o.link = K))) := by
    simp only [process_feed_data]
    exact List.Sublist.countP_le _ (List.take_sublist _ _)
  have h2 : ((sortDesc outKey ((tbl.map (fun e => e.2)).map (finalize data.topic))).countP
      (fun o => decide (canonicalize_url o.link = K)))
      = tbl.countP (fun e => decide (canonicalize_url e.2.link = K)) := by
    rw [(sortDesc_perm outKey _).countP_eq]
    rw [List.countP_map, List.countP_map]
    rfl
  have h3 : tbl.countP (fun e => decide (canonicalize_url e.2.link = K)) ≤ 1 := by
    refine countP_le_one_of_keys hgood.2 ?_
    intro e he hek
    rw [← (hgood.1 e he).1, (hgood.1 e he).2, hek]
  omega

/-! ## Claim theorems -/

/-- C1: the claim says an `acquire` on a key whose holder has held it
longer than the staleness threshold returns true even though the holder
never released.  The code evaluated at that failing input: the lock is
held since timestamp 0 and acquired at time 100 (so its age 100 exceeds
`_STALE_AFTER_SECONDS = 30`) with `force_if_stale` on — yet the call
returns `false`, because the fall-through `lock.acquire(blocking=False)`
fails on a lock that is still held.  This contradicts the claim, the
spec's §4.6 contract, and the code's own comment ("We just proceed as if
we got the lock"). -/
theorem C1_stale_acquire_returns_false :
    STALE_AFTER_SECONDS < (100 : ℤ) - 0
      ∧ acquire_lock (some ⟨true, 0⟩) 100 true = (false, ⟨true, 0⟩) := by decide

/-- C2 (counterexample to the claim as stated): on the spec's concrete
scenario the engine produces *two* output items, not one — the
normalized titles "flamengo vence" and "flamengo vence o jogo" have
similarity ratio 80, below the 92 threshold, so the two items are never
judged duplicates. -/
theorem C2_two_items_not_one :
    (process_feed_data c2Data).items.length = 2
      ∧ fuzz_ratio (normalize_title "Flamengo vence")
          (normalize_title "Flamengo vence o jogo") = 80 := by decide

/-- C2 (amended): the scenario produces exactly two output items, the
newer "lance" item first, each with no `merged_from`, and no overflow. -/
theorem C2_amended_output :
    ((process_feed_data c2Data).items.map (fun o => (o.link, o.merged_from))
        = [("https://lance.com.br/b", none), ("https://ge.com/a", none)])
      ∧ (process_feed_data c2Data).overflow_truncated = false := by decide

/-- C3: the claim (and the code's own comments at lines 131–135) say the
new winner's `merged_from` records the old winner and everything it had
absorbed, each exactly once.  Evaluating the code on a chain where the
winner is replaced twice: after "b" (having absorbed "c") is replaced by
"a", the list records the pair twice — `[c, b, c, b]` — because
`merged = existing_item.get('merged_from', [])` aliases the old winner's
own list, so the later `extend(existing_item['merged_from'])` appends
the list to itself. -/
theorem C3_merged_from_duplicated :
    ((process_feed_data c3Data).items.map (fun o => o.merged_from))
      = [some [⟨"c", c3L⟩, ⟨"b", c3L⟩, ⟨"c", c3L⟩, ⟨"b", c3L⟩]] := by decide

/-- C6: for every input batch containing two raw items whose links
canonicalize to the same key and whose dates are valid, at most one
output item can canonicalize to that key — whatever the two items'
titles and whatever else the batch contains — because the dedup table
keys every winner by its own canonical URL and keeps keys distinct. -/
theorem C6_exact_duplicate_collapse (data : FeedData) (fa fb : Feed) (a b : RawItem)
    (_hfa : fa ∈ data.feeds) (_ha : a ∈ fa.items) (_hfb : fb ∈ data.feeds) (_hb : b ∈ fb.items)
    (_hcanon : canonicalize_url a.link = canonicalize_url b.link)
    (_hda : (isoparse a.pubDate).isSome) (_hdb : (isoparse b.pubDate).isSome) :
    ((process_feed_data data).items.countP
      (fun o => decide (canonicalize_url o.link = canonicalize_url a.link))) ≤ 1 :=
  process_countP_canonical data (canonicalize_url a.link)

/-- Witness for C6: the chain batch contains two items with the same
link `c3L` and valid dates, and indeed at most one output item
canonicalizes to that link's key. -/
theorem C6_witness :
    ((process_feed_data c3Data).items.countP
      (fun o => decide (canonicalize_url o.link = canonicalize_url c3ItemC.link))) ≤ 1 :=
  C6_exact_duplicate_collapse c3Data ⟨"c", [c3ItemC]⟩ ⟨"b", [c3ItemB]⟩ c3ItemC c3ItemB
    (by decide) (by decide) (by decide) (by decide) (by decide) (by decide) (by decide)

/-- C9 (counterexample to the claim as stated): canonicalization is not
idempotent.  `canonicalize("/")` gives `""` whose canonicalization is
`None`, and on `"http://h/a/;b/"` stripping the trailing slash exposes a
`';'` in the last path segment, so the second pass splits params and
removes a `'/'` that the first pass kept. -/
theorem C9_not_idempotent :
    (canonicalize_url "/" = some "" ∧ canonicalize_url "" = none)
      ∧ (canonicalize_url "http://h/a/;b/" = some "http://h/a/;b"
        ∧ canonicalize_url "http://h/a/;b" = some "http://h/a;b"
        ∧ ("http://h/a;b" : String) ≠ "http://h/a/;b") := by decide

/-- C9 (amended): `canonicalize_url` never raises — for a nonempty input
on which `urlparse` raises it returns the lowercased input unchanged —
and it is idempotent on every URL of the standard form
`scheme://host/path`: whenever `urlparse` splits the input into a
nonempty well-formed scheme, a nonempty netloc and a path that contain
none of the re-splitting delimiters `? # ;` (and no params), the
canonicalization of the canonicalization equals the canonicalization.
Idempotence fails in general (see the counterexample). -/
theorem C9_idempotent_standard :
    (∀ (u : String) (p : ParseResult), urlparseE u.data = .ok p →
      p.scheme ≠ [] → headAlpha p.scheme = true → p.scheme.all schemeChar = true →
      lowerL p.scheme = p.scheme →
      p.netloc ≠ [] → (∀ x ∈ p.netloc, netlocChar x = true) →
      (∀ x ∈ p.netloc, cleanChar x = true) →
      ('[' ∈ p.netloc ↔ ']' ∈ p.netloc) →
      (p.path = [] ∨ p.path.head? = some '/') →
      (∀ x ∈ p.path, cleanChar x = true) →
      '?' ∉ p.path → '#' ∉ p.path → ';' ∉ p.path → p.params = [] →
      ∀ s, canonicalize_url u = some s → canonicalize_url s = some s)
    ∧ (∀ u : String, u ≠ "" → urlparseE u.data = .error () →
        canonicalize_url u = some (lowerStr u)) := by
  constructor
  · intro u p hu hs1 hs2 hs3 hs4 hn1 hn2 hnc hbr hp0 hpc hq hh hsc hpar s hs
    have hne : u ≠ "" := by
      intro hu0
      rw [hu0] at hu
      have h0 : urlparseE ("" : String).data = .ok (⟨[], [], [], [], [], []⟩ : ParseResult) :=
        rfl
      rw [h0] at hu
      injection hu with h
      rw [← h] at hs1
      exact hs1 rfl
    -- facts about the stripped path
    have hsub : ∀ x ∈ rstripSlash p.path, x ∈ p.path := by
      obtain ⟨t, hl, _⟩ := rstripSlash_append p.path
      intro x hx
      have hx2 : x ∈ rstripSlash p.path ++ t := List.mem_append.mpr (Or.inl hx)
      rw [← hl] at hx2
      exact hx2
    have hppath : rstripSlash p.path = [] ∨ (rstripSlash p.path).head? = some '/' := by
      by_cases hnil : rstripSlash p.path = []
      · exact Or.inl hnil
      · right
        rw [rstripSlash_head hnil]
        rcases hp0 with h | h
        · exact absurd (by rw [h]; rfl) hnil
        · exact h
    -- step A: compute the first canonicalization
    have hcu : canonicalize_url u = some (String.mk (p.scheme ++ ':' :: '/' :: '/' ::
        (lowerL p.netloc ++ lowerL (rstripSlash p.path)))) := by
      unfold canonicalize_url
      rw [if_neg hne, hu]
      show some (String.mk (lowerL
          (urlunparse ⟨p.scheme, p.netloc, rstripSlash p.path, p.params, [], []⟩))) = _
      rw [hpar, urlunparse_std p.scheme p.netloc (rstripSlash p.path) hs1 hn1 hppath,
        lowerL_assembled hs4]
    rw [hcu] at hs
    rcases Option.some_inj.mp hs with rfl
    -- step B: the result is a fixed point
    refine canonicalize_assembled p.scheme (lowerL p.netloc) (lowerL (rstripSlash p.path))
      hs1 hs2 hs3 hs4 ?_ ?_ ?_ ?_ (lowerL_idem _) ?_ ?_ ?_ ?_ ?_ (lowerL_idem _)
      (rstripSlash_lowerL p.path)
    · intro h0
      exact hn1 (by simpa [lowerL] using h0)
    · intro x hx
      rcases List.mem_map.mp (by simpa [lowerL] using hx) with ⟨c, hc, rfl⟩
      exact netlocChar_lowerChar (hn2 c hc)
    · intro x hx
      rcases List.mem_map.mp (by simpa [lowerL] using hx) with ⟨c, hc, rfl⟩
      exact cleanChar_lowerChar (hnc c hc)
    · rw [mem_lowerL_special (by decide) (by decide),
        mem_lowerL_special (by decide) (by decide)]
      intro hor
      rcases hor with ⟨h1, h2⟩ | ⟨h1, h2⟩
      · exact h2 (hbr.mp h1)
      · exact h2 (hbr.mpr h1)
    · rcases hppath with h | h
      · left
        rw [h]
        rfl
      · right
        unfold lowerL
        rw [List.head?_map, h]
        decide
    · intro x hx
      rcases List.mem_map.mp (by simpa [lowerL] using hx) with ⟨c, hc, rfl⟩
      exact cleanChar_lowerChar (hpc c (hsub c hc))
    · rw [mem_lowerL_special (by decide) (by decide)]
      intro hc
      exact hq (hsub _ hc)
    · rw [mem_lowerL_special (by decide) (by decide)]
      intro hc
      exact hh (hsub _ hc)
    · rw [mem_lowerL_special (by decide) (by decide)]
      intro hc
      exact hsc (hsub _ hc)
  · intro u hne herr
    unfold canonicalize_url
    rw [if_neg hne, herr]

/-- Witness for C9: a concrete standard URL is a fixed point of
canonicalization, and a concrete unparseable URL (mismatched IPv6
bracket) is returned lowercased. -/
theorem C9_witness :
    canonicalize_url "http://ex.com/path" = some "http://ex.com/path"
      ∧ canonicalize_url "http://[::1/p" = some (lowerStr "http://[::1/p") := by
  constructor
  · exact C9_idempotent_standard.1 "HTTP://Ex.com/Path/?q=1#f"
      ⟨"http".data, "Ex.com".data, "/Path/".data, [], "q=1".data, "f".data⟩
      (by rfl) (by decide) (by decide) (by decide) (by decide) (by decide)
      (by decide) (by decide) (by decide) (by decide) (by decide) (by decide)
      (by decide) (by decide) (by decide) "http://ex.com/path" (by decide)
  · exact C9_idempotent_standard.2 "http://[::1/p" (by decide) (by rfl)

/-- C10: `canonicalize_url` maps a falsy (empty) link to `None`; inside
the engine every empty-link item gets the canonical key `None`, so all
such items share one dedup group: at most one empty-link item survives
in any batch, and on a concrete batch of two empty-link items that are
far outside the fuzzy window (similarity 0, gap 12 h) the exact-match
rule still collapses them to a single output item. -/
theorem C10_empty_link_groups :
    canonicalize_url "" = none
      ∧ (∀ (data : FeedData) (f g : Feed) (a b : RawItem), f ∈ data.feeds → a ∈ f.items →
          g ∈ data.feeds → b ∈ g.items → a.link = "" → b.link = "" →
          ((process_feed_data data).items.countP
            (fun o => decide (canonicalize_url o.link = none))) ≤ 1)
      ∧ (process_feed_data c10Data).items.length = 1 := by
  refine ⟨by decide, ?_, by decide⟩
  intro data f g a b _ _ _ _ _ _
  exact process_countP_canonical data none

/-- C5: for a two-item batch with valid dates and no exact canonical-URL
match, the engine collapses the pair to one output item exactly when the
normalized-title similarity is at least 92 and the publish dates are at
most six hours (21600 s) apart — so similarity exactly 92 with a gap of
exactly 21600 s collapses, while similarity 91, or a gap of 21601 s,
does not. -/
theorem C5_fuzzy_window_iff (t : String) (prio : List String) (N : ℕ) (s1 s2 : String)
    (r1 r2 : RawItem) (d1 d2 : ℤ)
    (h1 : isoparse r1.pubDate = some d1) (h2 : isoparse r2.pubDate = some d2)
    (hd : d2 ≤ d1) (hk : canonicalize_url r1.link ≠ canonicalize_url r2.link)
    (hN : 2 ≤ N) :
    ((process_feed_data ⟨t, prio, N, [⟨s1, [r1]⟩, ⟨s2, [r2]⟩]⟩).items.length = 1
      ↔ (92 ≤ fuzz_ratio (normalize_title r2.title) (normalize_title r1.title)
          ∧ (d2 - d1).natAbs ≤ 21600)) := by
  rw [process_two h1 h2 hd hk]
  have hfm : (fuzzyMatch (enriched s2 r2 d2) (enriched s1 r1 d1) = true)
      ↔ (92 ≤ fuzz_ratio (normalize_title r2.title) (normalize_title r1.title)
          ∧ (d2 - d1).natAbs ≤ 21600) := by
    simp [fuzzyMatch, enriched]
  by_cases hm : fuzzyMatch (enriched s2 r2 d2) (enriched s1 r1 d1)
  · rw [if_pos hm]
    have hlen : ((if get_best_item_snd (enriched s1 r1 d1) (enriched s2 r2 d2) prio
        then [finalize t (withMerged (enriched s2 r2 d2) (mergedUpdate (enriched s1 r1 d1)))]
        else [finalize t (enriched s1 r1 d1)]).take N).length = 1 := by
      by_cases hw : get_best_item_snd (enriched s1 r1 d1) (enriched s2 r2 d2) prio
      · rw [if_pos hw, List.length_take]
        simp only [List.length_cons, List.length_nil]
        omega
      · rw [if_neg hw, List.length_take]
        simp only [List.length_cons, List.length_nil]
        omega
    rw [hlen]
    exact iff_of_true rfl (hfm.mp hm)
  · rw [if_neg hm]
    have hlen : ((sortDesc outKey
        [finalize t (enriched s1 r1 d1), finalize t (enriched s2 r2 d2)]).take N).length
        = 2 := by
      rw [List.length_take, (sortDesc_perm outKey _).length_eq]
      simp only [List.length_cons, List.length_nil]
      omega
    rw [hlen]
    refine iff_of_false (by omega) ?_
    intro hcontra
    exact hm (hfm.mpr hcontra)

/-- Witness for C5: the boundary pair — similarity exactly 92 (titles of
25 letters sharing a 23-letter common subsequence) and a gap of exactly
six hours — collapses to one item. -/
theorem C5_witness :
    (process_feed_data ⟨"t", [], 200,
      [⟨"s1", [⟨"aaaaaaaaaaaaaaaaaaaaaaaaa", "https://a.com/1",
          "2025-01-01T10:00:00Z", none, none, none, []⟩]⟩,
       ⟨"s2", [⟨"aaaaaaaaaaaaaaaaaaaaaaabb", "https://b.com/2",
          "2025-01-01T04:00:00Z", none, none, none, []⟩]⟩]⟩).items.length = 1 :=
  (C5_fuzzy_window_iff "t" [] 200 "s1" "s2"
      ⟨"aaaaaaaaaaaaaaaaaaaaaaaaa", "https://a.com/1", "2025-01-01T10:00:00Z",
        none, none, none, []⟩
      ⟨"aaaaaaaaaaaaaaaaaaaaaaabb", "https://b.com/2", "2025-01-01T04:00:00Z",
        none, none, none, []⟩
      1735725600 1735704000 (by decide) (by decide) (by decide) (by decide)
      (by decide)).mpr (by decide)

/-- C4 (counterexample to the claim as stated): with A from the
position-0 source and B from the position-1 source, identical titles and
dates (so the pair is judged the same story by the fuzzy rule) and A's
feed listed first, the output keeps A — but records *nothing* in
`merged_from`: when the incumbent winner beats the new item, the loser
is discarded without provenance (lines 124–143 have no else branch), so
B is not recorded, contradicting "regardless of which of the two is
processed first". -/
theorem C4_loser_not_recorded :
    ((process_feed_data c4Data).items.map (fun o => (o.link, o.merged_from)))
      = [("https://ge.com/x", none)] := by decide

/-- C4 (amended): with A's source at priority position 0 and B's at
position 1 and all else equal, the merged output always keeps A's link
and content; B's `(source, link)` is recorded in A's `merged_from`
exactly when B is processed first (its feed listed first), while if A is
processed first, B is silently discarded and `merged_from` stays
absent. -/
theorem C4_priority_order_dependent (t : String) (prio : List String) (N : ℕ)
    (sA sB : String) (rA rB : RawItem) (d : ℤ)
    (hp0 : prio.findIdx? (fun x => x = sA) = some 0)
    (hp1 : prio.findIdx? (fun x => x = sB) = some 1)
    (hA : isoparse rA.pubDate = some d) (hB : isoparse rB.pubDate = some d)
    (hk : canonicalize_url rA.link = canonicalize_url rB.link)
    (hN : 1 ≤ N) :
    ((process_feed_data ⟨t, prio, N, [⟨sA, [rA]⟩, ⟨sB, [rB]⟩]⟩).items.map
        (fun o => (o.link, o.title, o.merged_from)) = [(rA.link, rA.title, none)])
      ∧ ((process_feed_data ⟨t, prio, N, [⟨sB, [rB]⟩, ⟨sA, [rA]⟩]⟩).items.map
          (fun o => (o.link, o.title, o.merged_from))
          = [(rA.link, rA.title, some [⟨sB, rB.link⟩])]) := by
  have hrA : sourceRank prio (enriched sA rA d).source = 0 := sourceRank_eq hp0
  have hrB : sourceRank prio (enriched sB rB d).source = 1 := sourceRank_eq hp1
  obtain ⟨n, rfl⟩ : ∃ n, N = n + 1 := ⟨N - 1, by omega⟩
  constructor
  · rw [process_two_exact hA hB le_rfl hk]
    rw [get_best_item_snd_ranks hrA hrB (by omega)]
    simp [finalize, enriched]
  · rw [process_two_exact hB hA le_rfl hk.symm]
    rw [get_best_item_snd_ranks hrB hrA (by omega)]
    simp [mergedUpdate, withMerged, finalize, enriched]

/-- Witness for C4 (amended): the concrete "ge"/"lance" pair with a
shared link, in both feed orders. -/
theorem C4_witness :
    ((process_feed_data ⟨"futebol", ["ge", "lance"], 200,
        [⟨"ge", [c4A]⟩, ⟨"lance", [c4eB]⟩]⟩).items.map
        (fun o => (o.link, o.title, o.merged_from))
        = [(c4A.link, c4A.title, none)])
      ∧ ((process_feed_data ⟨"futebol", ["ge", "lance"], 200,
          [⟨"lance", [c4eB]⟩, ⟨"ge", [c4A]⟩]⟩).items.map
          (fun o => (o.link, o.title, o.merged_from))
          = [(c4A.link, c4A.title, some [⟨"lance", c4eB.link⟩])]) :=
  C4_priority_order_dependent "futebol" ["ge", "lance"] 200 "ge" "lance" c4A c4eB
    1735725600 (by decide) (by decide) (by decide) (by decide) (by decide) (by decide)

/-- C7: for every input and configured `max_items = N`, the output item
list is the `N`-prefix of the descending-by-publish-date sorted
deduplicated list: its length is `min N M` (so exactly `N` when `M > N`
and exactly `M` when `M ≤ N`), `overflow_truncated` holds exactly when
`M > N`, the output is sorted by effective publish date descending, and
every kept item is at least as recent as every dropped item. -/
theorem C7_truncation_and_order (data : FeedData) :
    ((process_feed_data data).items.length
        = min data.max_items (finalSorted data).length)
      ∧ ((process_feed_data data).overflow_truncated
          = decide (data.max_items < (finalSorted data).length))
      ∧ (process_feed_data data).items.Pairwise (fun a b => outKey b ≤ outKey a)
      ∧ (∀ x ∈ (process_feed_data data).items,
          ∀ y ∈ (finalSorted data).drop data.max_items, outKey y ≤ outKey x) := by
  refine ⟨?_, rfl, ?_, ?_⟩
  · show ((finalSorted data).take data.max_items).length = _
    exact List.length_take _ _
  · show ((finalSorted data).take data.max_items).Pairwise _
    exact List.Pairwise.sublist (List.take_sublist _ _) (sortDesc_pairwise outKey _)
  · intro x hx y hy
    have hp : ((finalSorted data).take data.max_items
        ++ (finalSorted data).drop data.max_items).Pairwise
          (fun a b => outKey b ≤ outKey a) := by
      rw [List.take_append_drop]
      exact sortDesc_pairwise outKey _
    exact (List.pairwise_append.mp hp).2.2 x hx y hy

/-- Witness for C7: the two-item batch with `max_items = 1`. -/
theorem C7_witness :
    ((process_feed_data c7Data).items.length
        = min c7Data.max_items (finalSorted c7Data).length)
      ∧ ((process_feed_data c7Data).overflow_truncated
          = decide (c7Data.max_items < (finalSorted c7Data).length))
      ∧ (process_feed_data c7Data).items.Pairwise (fun a b => outKey b ≤ outKey a)
      ∧ (∀ x ∈ (process_feed_data c7Data).items,
          ∀ y ∈ (finalSorted c7Data).drop c7Data.max_items, outKey y ≤ outKey x) :=
  C7_truncation_and_order c7Data

/-- Witness for C10: instantiated at the concrete empty-link batch. -/
theorem C10_witness :
    ((process_feed_data c10Data).items.countP
      (fun o => decide (canonicalize_url o.link = none))) ≤ 1 :=
  C10_empty_link_groups.2.1 c10Data ⟨"s1", [c10a]⟩ ⟨"s2", [c10b]⟩ c10a c10b
    (by decide) (by decide) (by decide) (by decide) (by decide) (by decide)

end RSSPrime
